import Mathlib

/-!
Verification of the reversible stepping engine (src/src/main.rs).

Shallow embedding notes:
* Rust `i32` / `u64` values are modelled as `Int` / `Nat`.  The one place where
  fixed-width behaviour is load-bearing — the `self.t as u64` sign-extending
  cast that keys the die stream — is modelled exactly by `u64_of_i32`
  (reduction modulo `2 ^ 64`, so `-1` maps to `2 ^ 64 - 1`).
* A Rust `Vec` used as a stack (push / pop at the tail) is modelled as a
  `List` stored most-recent-first: the vector's tail element is the list's
  head, `Vec::push` is cons, `Vec::pop` reads the head and keeps the tail.
* The ambient random seed drawn by `rand::rng().random()` at construction time
  is passed as an explicit parameter, as the spec's design notes recommend for
  a reimplementation.
-/

namespace Multibaker

/-- Rust's `self.t as u64` cast of an `i32` time index: sign extension, that
is, reduction modulo `2 ^ 64`. -/
def u64_of_i32 (t : Int) : Nat := (t % (2 ^ 64)).toNat

/-- Modelled from the spec: the external "cryptographically-strong, seedable
stream-style pseudorandom generator supporting 'seed with a 64-bit value, draw
one uniform integer in [0, N)' as a stateless-per-call operation" (spec §6).
The crate code behind `ChaCha8Rng::seed_from_u64(..)` is outside this
repository; this stand-in is a concrete pure 64-bit mixer, realising exactly
the contract the spec states: total and deterministic. -/
def mix64 (x : Nat) : Nat :=
  let a := (x ^^^ (x >>> 33)) * 0xff51afd7ed558ccd % 2 ^ 64
  let b := (a ^^^ (a >>> 33)) * 0xc4ceb9fe1a85ec53 % 2 ^ 64
  b ^^^ (b >>> 33)

/-- Modelled from the spec: drawing one uniform integer in `[0, n)` from the
external generator seeded with `seed` (`random_range(0..n)` of the external
crate, spec §6). -/
def seeded_draw (seed n : Nat) : Int := ((mix64 seed % n : Nat) : Int)

/-- The reversible state (struct `State` in the source).  `roll_die` is the
boxed die closure; the two dice vectors are stored most-recent-first. -/
structure State where
  t : Int
  macrostate : Int
  future_dice : List Int
  past_dice : List Int
  roll_die : Nat → Int

/-- A pair of forward / backward evolution functions (struct `Transition`). -/
structure Transition where
  evolve_forward : Int → Int → Int
  evolve_backward : Int → Int → Int

/-- `Transition::idle`. -/
def Transition.idle : Transition :=
  { evolve_forward := fun macrostate _ => macrostate
    evolve_backward := fun macrostate _ => macrostate }

/-- `Transition::random_step`. -/
def Transition.random_step : Transition :=
  { evolve_forward := fun macrostate dice => macrostate + dice
    evolve_backward := fun macrostate dice => macrostate - dice }

/-- `Transition::record`. -/
def Transition.record (val : Int) : Transition :=
  { evolve_forward := fun macrostate _ => macrostate + val
    evolve_backward := fun macrostate _ => macrostate - val }

/-- `State::uniform_rolls`: the die closure capturing `microstate_seed`,
re-seeding the generator with `t ^ microstate_seed` on every call. -/
def State.uniform_rolls (microstate_seed : Nat) : Nat → Int :=
  fun t => seeded_draw (t ^^^ microstate_seed) 6

/-- `State::new`: the fresh ambient seed is an explicit parameter. -/
def State.new (macrostate : Int) (microstate_seed : Nat) : State :=
  { t := 0
    macrostate := macrostate
    future_dice := []
    past_dice := []
    roll_die := State.uniform_rolls microstate_seed }

/-- `State::peturbed`: copy the parent's time index and macrostate, empty both
histories, and build the die source from a freshly drawn seed (again an
explicit parameter). -/
def State.peturbed (old_state : State) (microstate_seed : Nat) : State :=
  { t := old_state.t
    macrostate := old_state.macrostate
    future_dice := []
    past_dice := []
    roll_die := State.uniform_rolls microstate_seed }

/-- `State::step_forward`: pop the tail of `future_dice` if any, else roll at
the current time index; evolve forward; push the die onto `past_dice`;
increment `t`. -/
def State.step_forward (s : State) (transition : Transition) : State :=
  let die := s.future_dice.headD (s.roll_die (u64_of_i32 s.t))
  { s with
    macrostate := transition.evolve_forward s.macrostate die
    past_dice := die :: s.past_dice
    future_dice := s.future_dice.tail
    t := s.t + 1 }

/-- `State::step_backward`: decrement `t` first; pop the tail of `past_dice`
if any, else roll at the already-decremented index; evolve backward; push the
die onto `future_dice`. -/
def State.step_backward (s : State) (transition : Transition) : State :=
  let die := s.past_dice.headD (s.roll_die (u64_of_i32 (s.t - 1)))
  { s with
    t := s.t - 1
    macrostate := transition.evolve_backward s.macrostate die
    past_dice := s.past_dice.tail
    future_dice := die :: s.future_dice }

/-- The inverse contract a caller-supplied transition must satisfy. -/
def Transition.Invertible (tr : Transition) : Prop :=
  ∀ m d : Int, tr.evolve_backward (tr.evolve_forward m d) d = m

/-- A sequence of forward steps, applied left to right. -/
def steps_forward (s : State) (ts : List Transition) : State :=
  ts.foldl State.step_forward s

/-- A sequence of backward steps, applied left to right. -/
def steps_backward (s : State) (ts : List Transition) : State :=
  ts.foldl State.step_backward s

/-- One driver call on a state: a forward or a backward step with the
transition the driver picked for that call (spec §2's control flow). -/
inductive Move where
  | fwd (tr : Transition)
  | bwd (tr : Transition)

/-- Apply one driver call. -/
def applyMove (s : State) (mv : Move) : State :=
  match mv with
  | .fwd tr => s.step_forward tr
  | .bwd tr => s.step_backward tr

/-- Run a whole sequence of driver calls. -/
def runMoves (s : State) (ms : List Move) : State := ms.foldl applyMove s

/-- The time index a single call crosses: a forward step crosses the interval
keyed by the current `t`, a backward step the one keyed by `t - 1`. -/
def crossedIdx (s : State) : Move → Int
  | .fwd _ => s.t
  | .bwd _ => s.t - 1

/-- Every time index crossed while running `ms` from `s`, in order. -/
def crossedList (s : State) : List Move → List Int
  | [] => []
  | mv :: ms => crossedIdx s mv :: crossedList (applyMove s mv) ms

/-- The time index `k` currently has a die cached for it: position `t - 1 - k`
of the past cache when `k < t`, position `k - t` of the future cache when
`t ≤ k`. -/
def inCache (s : State) (k : Int) : Prop :=
  s.t - s.past_dice.length ≤ k ∧ k < s.t + s.future_dice.length

/-- The past cache (most recent first), read downward from time index `t`, is
exactly the die stream: its head is the die for index `t - 1`, the next for
`t - 2`, and so on. -/
def pastOk (seed : Nat) : Int → List Int → Prop
  | _, [] => True
  | t, d :: rest =>
      d = State.uniform_rolls seed (u64_of_i32 (t - 1)) ∧ pastOk seed (t - 1) rest

/-- The future cache (soonest first), read upward from time index `t`, is
exactly the die stream: its head is the die for index `t`, the next for
`t + 1`, and so on. -/
def futOk (seed : Nat) : Int → List Int → Prop
  | _, [] => True
  | t, d :: rest =>
      d = State.uniform_rolls seed (u64_of_i32 t) ∧ futOk seed (t + 1) rest

/-- One iteration of `main`'s forward loop: at `t = 5` the memory state takes
a `record` step with the walk's current macrostate, otherwise the walk takes a
`random_step` step. -/
def mainStepF (p : State × State) (t : Nat) : State × State :=
  if t = 5 then (p.1, p.2.step_forward (Transition.record p.1.macrostate))
  else (p.1.step_forward Transition.random_step, p.2)

/-- One iteration of `main`'s backward loop, symmetric to the forward one. -/
def mainStepB (p : State × State) (t : Nat) : State × State :=
  if t = 5 then (p.1, p.2.step_backward (Transition.record p.1.macrostate))
  else (p.1.step_backward Transition.random_step, p.2)

/-- `main`'s forward pass: loop `t` over `0..10`. -/
def mainForward (w m : State) : State × State :=
  (List.range 10).foldl mainStepF (w, m)

/-- `main`'s whole run: the forward pass, then the backward loop with `t`
over `(0..10).rev()`. -/
def mainRound (w m : State) : State × State :=
  ((List.range 10).reverse).foldl mainStepB (mainForward w m)

/-- A concrete state (empty caches) on which the literal round-trip claim
fails: the freshly rolled die stays cached in `future_dice` afterwards. -/
def cexState : State :=
  { t := 0, macrostate := 0, future_dice := [], past_dice := [],
    roll_die := fun _ => 0 }

/-- A concrete state with two cached future dice, used as a witness input. -/
def rtState : State :=
  { t := 3, macrostate := 7, future_dice := [4, 2], past_dice := [9],
    roll_die := fun _ => 1 }

/-- One forward step followed by one backward step with the same invertible
transition restores everything except that the die consumed (cached or freshly
rolled) now heads the future cache. -/
lemma round_trip_one (s : State) (tr : Transition) (h : tr.Invertible) :
    (s.step_forward tr).step_backward tr
      = { s with future_dice :=
            s.future_dice.headD (s.roll_die (u64_of_i32 s.t)) :: s.future_dice.tail } := by
  have hinv : ∀ m d : Int, tr.evolve_backward (tr.evolve_forward m d) d = m := h
  obtain ⟨t, m, fut, past, roll⟩ := s
  simp [State.step_forward, State.step_backward, hinv]

/-- The members of a singleton transition list built from `random_step` are
invertible. -/
lemma random_step_invertible : ∀ tr ∈ [Transition.random_step], tr.Invertible := by
  intro tr htr m d
  rw [List.mem_singleton] at htr
  subst htr
  simp [Transition.random_step]

/-- C1 (amended): with every transition in the list invertible, `k` forward
steps followed by the same `k` transitions backward in reverse order always
restore the macrostate, the time index, the past cache and the die source; the
future cache — and with it the whole state — is restored exactly whenever it
held at least `k` cached dice.  (When it held fewer, the freshly revealed dice
stay cached in `future_dice`, so that history is not restored to its
pre-sequence value: the correction the counterexample forces.) -/
theorem round_trip (s : State) (ts : List Transition)
    (h : ∀ tr ∈ ts, tr.Invertible) :
    (steps_backward (steps_forward s ts) ts.reverse).macrostate = s.macrostate ∧
    (steps_backward (steps_forward s ts) ts.reverse).t = s.t ∧
    (steps_backward (steps_forward s ts) ts.reverse).past_dice = s.past_dice ∧
    (steps_backward (steps_forward s ts) ts.reverse).roll_die = s.roll_die ∧
    (ts.length ≤ s.future_dice.length →
      steps_backward (steps_forward s ts) ts.reverse = s) := by
  induction ts generalizing s with
  | nil => exact ⟨rfl, rfl, rfl, rfl, fun _ => rfl⟩
  | cons tr ts ih =>
    have htr : tr.Invertible := h tr (List.mem_cons_self tr ts)
    have hinv : ∀ m d : Int, tr.evolve_backward (tr.evolve_forward m d) d = m := htr
    have hts : ∀ u ∈ ts, u.Invertible := fun u hu => h u (List.mem_cons_of_mem tr hu)
    have hfold : steps_backward (steps_forward s (tr :: ts)) (tr :: ts).reverse
        = (steps_backward (steps_forward (s.step_forward tr) ts)
            ts.reverse).step_backward tr := by
      simp [steps_forward, steps_backward, List.reverse_cons, List.foldl_append]
    obtain ⟨hm, ht, hp, hr, hfull⟩ := ih (s.step_forward tr) hts
    rw [hfold]
    refine ⟨?_, ?_, ?_, ?_, ?_⟩
    · simp only [State.step_backward]
      rw [hp, hm, hr]
      simp [State.step_forward, hinv]
    · simp only [State.step_backward]
      rw [ht]
      simp [State.step_forward]
    · simp only [State.step_backward]
      rw [hp]
      simp [State.step_forward]
    · simp only [State.step_backward]
      rw [hr]
      simp [State.step_forward]
    · intro hlen
      cases hfut : s.future_dice with
      | nil => rw [hfut] at hlen; simp at hlen
      | cons d rest =>
        have hXfull : steps_backward (steps_forward (s.step_forward tr) ts) ts.reverse
            = s.step_forward tr := by
          refine hfull ?_
          rw [hfut] at hlen
          simp only [State.step_forward, hfut, List.tail_cons]
          simp at hlen
          omega
        rw [hXfull, round_trip_one s tr htr, hfut]
        simp only [List.headD_cons, List.tail_cons]
        rw [← hfut]

/-- C1 counterexample: on a fresh state with empty caches, one forward step
with the (invertible) `idle` transition followed by one backward step with the
same transition list reversed leaves the rolled die cached in `future_dice`,
so that history is not restored to its pre-sequence (empty) value. -/
theorem round_trip_cex :
    Transition.idle.Invertible ∧
    (steps_backward (steps_forward cexState [Transition.idle])
        [Transition.idle].reverse).future_dice ≠ cexState.future_dice :=
  ⟨fun _ _ => rfl, by decide⟩

/-- Witness for C1 at a state with two cached future dice and one
`random_step` transition. -/
theorem round_trip_witness :
    (∀ tr ∈ [Transition.random_step], tr.Invertible) ∧
    ((steps_backward (steps_forward rtState [Transition.random_step])
        [Transition.random_step].reverse).macrostate = rtState.macrostate ∧
      (steps_backward (steps_forward rtState [Transition.random_step])
        [Transition.random_step].reverse).t = rtState.t ∧
      (steps_backward (steps_forward rtState [Transition.random_step])
        [Transition.random_step].reverse).past_dice = rtState.past_dice ∧
      (steps_backward (steps_forward rtState [Transition.random_step])
        [Transition.random_step].reverse).roll_die = rtState.roll_die ∧
      ([Transition.random_step].length ≤ rtState.future_dice.length →
        steps_backward (steps_forward rtState [Transition.random_step])
          [Transition.random_step].reverse = rtState)) :=
  ⟨random_step_invertible,
    round_trip rtState [Transition.random_step] random_step_invertible⟩

/-- C9: construction origin — `State::new(m)` starts at time index 0, with the
given macrostate and both dice histories empty. -/
theorem new_spec (m : Int) (seed : Nat) :
    (State.new m seed).t = 0 ∧ (State.new m seed).macrostate = m ∧
    (State.new m seed).past_dice = [] ∧ (State.new m seed).future_dice = [] :=
  ⟨rfl, rfl, rfl, rfl⟩

/-- C8: `State::peturbed` copies the parent's time index and macrostate,
empties both histories, and installs a die source built from the freshly drawn
seed (the parent, being passed immutably, is unchanged). -/
theorem peturbed_spec (s : State) (fresh_seed : Nat) :
    (State.peturbed s fresh_seed).t = s.t ∧
    (State.peturbed s fresh_seed).macrostate = s.macrostate ∧
    (State.peturbed s fresh_seed).past_dice = [] ∧
    (State.peturbed s fresh_seed).future_dice = [] ∧
    (State.peturbed s fresh_seed).roll_die = State.uniform_rolls fresh_seed :=
  ⟨rfl, rfl, rfl, rfl, rfl⟩

/-- C5: transition inverse laws — for `random_step`, `idle` and `record v`,
the backward evolution exactly undoes the forward one for every macrostate `m`
and every die value `d` in `[0, 6)`. -/
theorem transition_inverse_laws (m d v : Int) (hd : 0 ≤ d ∧ d < 6) :
    Transition.random_step.evolve_backward
        (Transition.random_step.evolve_forward m d) d = m ∧
    Transition.idle.evolve_backward (Transition.idle.evolve_forward m d) d = m ∧
    (Transition.record v).evolve_backward
        ((Transition.record v).evolve_forward m d) d = m := by
  refine ⟨?_, ?_, ?_⟩ <;>
    simp [Transition.random_step, Transition.idle, Transition.record]

/-- Witness for C5 at `m = 5`, `d = 3`, `v = 7`. -/
theorem transition_inverse_laws_witness :
    ((0 : Int) ≤ 3 ∧ (3 : Int) < 6) ∧
    (Transition.random_step.evolve_backward
        (Transition.random_step.evolve_forward 5 3) 3 = 5 ∧
      Transition.idle.evolve_backward (Transition.idle.evolve_forward 5 3) 3 = 5 ∧
      (Transition.record 7).evolve_backward
        ((Transition.record 7).evolve_forward 5 3) 3 = 5) :=
  ⟨by decide, transition_inverse_laws 5 3 7 (by decide)⟩

/-- C6: die contract — the function returned by `uniform_rolls seed` is total
and deterministic (a pure function: equal inputs give equal results), and its
every value lies in `[0, 6)`, for every time index `t`, negative ones (taken
through the sign-extending cast) included. -/
theorem die_contract (seed : Nat) (t : Int) :
    State.uniform_rolls seed (u64_of_i32 t) = State.uniform_rolls seed (u64_of_i32 t) ∧
    0 ≤ State.uniform_rolls seed (u64_of_i32 t) ∧
    State.uniform_rolls seed (u64_of_i32 t) < 6 := by
  refine ⟨rfl, ?_, ?_⟩ <;>
    · simp only [State.uniform_rolls, seeded_draw]
      omega

/-- C2: the forward-step algorithm — the new time index is the old plus
exactly 1; with a non-empty future cache the die is its popped tail, otherwise
it is `roll_die` at the current time index; the macrostate becomes
`evolve_forward macrostate die` and the die is pushed onto `past_dice`. -/
theorem step_forward_spec (s : State) (tr : Transition) :
    (s.step_forward tr).t = s.t + 1 ∧
    (∀ d rest, s.future_dice = d :: rest →
      (s.step_forward tr).macrostate = tr.evolve_forward s.macrostate d ∧
      (s.step_forward tr).past_dice = d :: s.past_dice ∧
      (s.step_forward tr).future_dice = rest) ∧
    (s.future_dice = [] →
      (s.step_forward tr).macrostate
        = tr.evolve_forward s.macrostate (s.roll_die (u64_of_i32 s.t)) ∧
      (s.step_forward tr).past_dice
        = s.roll_die (u64_of_i32 s.t) :: s.past_dice ∧
      (s.step_forward tr).future_dice = []) := by
  refine ⟨rfl, ?_, ?_⟩
  · rintro d rest h
    simp [State.step_forward, h]
  · intro h
    simp [State.step_forward, h]

/-- C3: the backward-step algorithm — the new time index is the old minus
exactly 1; with a non-empty past cache the die is its popped tail, otherwise
it is `roll_die` keyed at the already-decremented index `s.t - 1`; the
macrostate becomes `evolve_backward macrostate die` and the die is pushed onto
`future_dice`. -/
theorem step_backward_spec (s : State) (tr : Transition) :
    (s.step_backward tr).t = s.t - 1 ∧
    (∀ d rest, s.past_dice = d :: rest →
      (s.step_backward tr).macrostate = tr.evolve_backward s.macrostate d ∧
      (s.step_backward tr).future_dice = d :: s.future_dice ∧
      (s.step_backward tr).past_dice = rest) ∧
    (s.past_dice = [] →
      (s.step_backward tr).macrostate
        = tr.evolve_backward s.macrostate (s.roll_die (u64_of_i32 (s.t - 1))) ∧
      (s.step_backward tr).future_dice
        = s.roll_die (u64_of_i32 (s.t - 1)) :: s.future_dice ∧
      (s.step_backward tr).past_dice = []) := by
  refine ⟨rfl, ?_, ?_⟩
  · rintro d rest h
    simp [State.step_backward, h]
  · intro h
    simp [State.step_backward, h]

/-- C7: Scenario B — `main`'s forward loop (`random_step` on the walk at every
`t` in `0..10` except `t = 5`, where the memory instead records the walk's
current macrostate) followed by its backward loop (the symmetric steps for `t`
in `9..0` descending) returns both states exactly to macrostate 0, and the
memory's macrostate right after the forward pass equals the walk's macrostate
as it stood after the first five loop iterations (the walk's first five
forward steps), not the walk's final value. -/
theorem scenario_b (sw sm : Nat) :
    (mainRound (State.new 0 sw) (State.new 0 sm)).1.macrostate = 0 ∧
    (mainRound (State.new 0 sw) (State.new 0 sm)).2.macrostate = 0 ∧
    (mainForward (State.new 0 sw) (State.new 0 sm)).2.macrostate
      = ((List.range 5).foldl mainStepF (State.new 0 sw, State.new 0 sm)).1.macrostate := by
  have h10 : List.range 10 = [0, 1, 2, 3, 4, 5, 6, 7, 8, 9] := rfl
  have h10r : ([0, 1, 2, 3, 4, 5, 6, 7, 8, 9] : List Nat).reverse
      = [9, 8, 7, 6, 5, 4, 3, 2, 1, 0] := rfl
  have h5 : List.range 5 = [0, 1, 2, 3, 4] := rfl
  refine ⟨?_, ?_, ?_⟩ <;>
    · simp only [mainRound, mainForward, h10r, h10, h5, List.foldl_cons,
        List.foldl_nil, mainStepF, mainStepB, Nat.reduceEqDiff, reduceIte,
        Int.reduceAdd, Int.reduceSub, State.step_forward,
        State.step_backward, State.new, Transition.record, Transition.random_step,
        List.headD_nil, List.headD_cons, List.tail_nil, List.tail_cons]
      omega

/-- A forward step preserves the die-source field and both cache-correctness
predicates. -/
lemma good_step_forward (seed : Nat) (s : State) (tr : Transition)
    (h1 : s.roll_die = State.uniform_rolls seed)
    (h2 : pastOk seed s.t s.past_dice) (h3 : futOk seed s.t s.future_dice) :
    (s.step_forward tr).roll_die = State.uniform_rolls seed ∧
    pastOk seed (s.step_forward tr).t (s.step_forward tr).past_dice ∧
    futOk seed (s.step_forward tr).t (s.step_forward tr).future_dice := by
  obtain ⟨t, m, fut, past, roll⟩ := s
  simp only at h1 h2 h3
  subst h1
  cases fut with
  | nil =>
    refine ⟨rfl, ?_, trivial⟩
    show State.uniform_rolls seed (u64_of_i32 t)
        = State.uniform_rolls seed (u64_of_i32 (t + 1 - 1)) ∧ pastOk seed (t + 1 - 1) past
    simpa using h2
  | cons f fs =>
    obtain ⟨hf0, hfs⟩ := h3
    refine ⟨rfl, ?_, hfs⟩
    show f = State.uniform_rolls seed (u64_of_i32 (t + 1 - 1)) ∧ pastOk seed (t + 1 - 1) past
    constructor
    · simpa using hf0
    · simpa using h2

/-- A backward step preserves the die-source field and both cache-correctness
predicates. -/
lemma good_step_backward (seed : Nat) (s : State) (tr : Transition)
    (h1 : s.roll_die = State.uniform_rolls seed)
    (h2 : pastOk seed s.t s.past_dice) (h3 : futOk seed s.t s.future_dice) :
    (s.step_backward tr).roll_die = State.uniform_rolls seed ∧
    pastOk seed (s.step_backward tr).t (s.step_backward tr).past_dice ∧
    futOk seed (s.step_backward tr).t (s.step_backward tr).future_dice := by
  obtain ⟨t, m, fut, past, roll⟩ := s
  simp only at h1 h2 h3
  subst h1
  cases past with
  | nil =>
    refine ⟨rfl, trivial, ?_⟩
    show State.uniform_rolls seed (u64_of_i32 (t - 1))
        = State.uniform_rolls seed (u64_of_i32 (t - 1)) ∧ futOk seed (t - 1 + 1) fut
    simpa using h3
  | cons p ps =>
    obtain ⟨hp0, hps⟩ := h2
    refine ⟨rfl, hps, ?_⟩
    show p = State.uniform_rolls seed (u64_of_i32 (t - 1)) ∧ futOk seed (t - 1 + 1) fut
    constructor
    · exact hp0
    · simpa using h3

/-- Running any sequence of driver calls preserves the die-source field and
both cache-correctness predicates. -/
lemma good_runMoves (seed : Nat) (ms : List Move) : ∀ s : State,
    s.roll_die = State.uniform_rolls seed →
    pastOk seed s.t s.past_dice → futOk seed s.t s.future_dice →
    (runMoves s ms).roll_die = State.uniform_rolls seed ∧
    pastOk seed (runMoves s ms).t (runMoves s ms).past_dice ∧
    futOk seed (runMoves s ms).t (runMoves s ms).future_dice := by
  induction ms with
  | nil => exact fun s h1 h2 h3 => ⟨h1, h2, h3⟩
  | cons mv ms ih =>
    intro s h1 h2 h3
    have hstep : (applyMove s mv).roll_die = State.uniform_rolls seed ∧
        pastOk seed (applyMove s mv).t (applyMove s mv).past_dice ∧
        futOk seed (applyMove s mv).t (applyMove s mv).future_dice := by
      cases mv with
      | fwd tr => exact good_step_forward seed s tr h1 h2 h3
      | bwd tr => exact good_step_backward seed s tr h1 h2 h3
    exact ih (applyMove s mv) hstep.1 hstep.2.1 hstep.2.2

/-- One driver call extends the set of cached time indices by exactly the
index it crosses. -/
lemma inCache_applyMove (s : State) (mv : Move) (k : Int) :
    inCache (applyMove s mv) k ↔ inCache s k ∨ k = crossedIdx s mv := by
  obtain ⟨t, m, fut, past, roll⟩ := s
  cases mv with
  | fwd tr =>
    cases fut with
    | nil =>
      simp only [applyMove, inCache, crossedIdx, State.step_forward]
      simp
      omega
    | cons f fs =>
      simp only [applyMove, inCache, crossedIdx, State.step_forward]
      simp
      omega
  | bwd tr =>
    cases past with
    | nil =>
      simp only [applyMove, inCache, crossedIdx, State.step_backward]
      simp
      omega
    | cons p ps =>
      simp only [applyMove, inCache, crossedIdx, State.step_backward]
      simp
      omega

/-- After a run, a time index is cached exactly when it was cached at the
start or was crossed during the run. -/
lemma crossed_interval (ms : List Move) : ∀ (s : State) (k : Int),
    (k ∈ crossedList s ms ∨ inCache s k) ↔ inCache (runMoves s ms) k := by
  induction ms with
  | nil =>
    intro s k
    simp [crossedList, runMoves]
  | cons mv ms ih =>
    intro s k
    have h1 := ih (applyMove s mv) k
    have h2 := inCache_applyMove s mv k
    simp only [crossedList, List.mem_cons, runMoves, List.foldl_cons] at *
    tauto

/-- A `pastOk` cache read at position `j` holds the die for index `t - 1 - j`. -/
lemma pastOk_get (seed : Nat) : ∀ (l : List Int) (t : Int), pastOk seed t l →
    ∀ j (hj : j < l.length),
      l.get ⟨j, hj⟩ = State.uniform_rolls seed (u64_of_i32 (t - 1 - j)) := by
  intro l
  induction l with
  | nil =>
    intro t _ j hj
    simp at hj
  | cons d rest ih =>
    intro t hok j hj
    obtain ⟨h0, hrest⟩ := hok
    cases j with
    | zero => simpa using h0
    | succ j =>
      have h := ih (t - 1) hrest j (by simpa using hj)
      have harg : t - 1 - ((j + 1 : Nat) : Int) = t - 1 - 1 - (j : Int) := by
        push_cast
        ring
      rw [harg]
      simpa using h

/-- A `futOk` cache read at position `j` holds the die for index `t + j`. -/
lemma futOk_get (seed : Nat) : ∀ (l : List Int) (t : Int), futOk seed t l →
    ∀ j (hj : j < l.length),
      l.get ⟨j, hj⟩ = State.uniform_rolls seed (u64_of_i32 (t + j)) := by
  intro l
  induction l with
  | nil =>
    intro t _ j hj
    simp at hj
  | cons d rest ih =>
    intro t hok j hj
    obtain ⟨h0, hrest⟩ := hok
    cases j with
    | zero => simpa using h0
    | succ j =>
      have h := ih (t + 1) hrest j (by simpa using hj)
      have harg : t + ((j + 1 : Nat) : Int) = t + 1 + (j : Int) := by
        push_cast
        ring
      rw [harg]
      simpa using h

/-- C4: history exclusivity and replay determinism — starting from a freshly
constructed state and applying any sequence of forward / backward calls, a
time index has a die cached for it exactly when the run crossed it; the die
cached at position `j` of the past cache is the die-stream value for index
`t - 1 - j` and at position `j` of the future cache the value for index
`t + j` (so a re-crossed index always replays its cached value, which is the
deterministic `roll_die` value of that index); and the past and future caches
key disjoint index sets, so no index is stored twice. -/
theorem history_exclusivity_replay (seed : Nat) (m : Int) (ms : List Move) :
    (∀ k : Int, k ∈ crossedList (State.new m seed) ms
        ↔ inCache (runMoves (State.new m seed) ms) k) ∧
    (∀ j (hj : j < (runMoves (State.new m seed) ms).past_dice.length),
        (runMoves (State.new m seed) ms).past_dice.get ⟨j, hj⟩
          = State.uniform_rolls seed
              (u64_of_i32 ((runMoves (State.new m seed) ms).t - 1 - j))) ∧
    (∀ j (hj : j < (runMoves (State.new m seed) ms).future_dice.length),
        (runMoves (State.new m seed) ms).future_dice.get ⟨j, hj⟩
          = State.uniform_rolls seed
              (u64_of_i32 ((runMoves (State.new m seed) ms).t + j))) ∧
    (∀ jp jf : Nat,
        (runMoves (State.new m seed) ms).t - 1 - (jp : Int)
          ≠ (runMoves (State.new m seed) ms).t + (jf : Int)) := by
  have hgood := good_runMoves seed ms (State.new m seed) rfl trivial trivial
  refine ⟨?_, ?_, ?_, ?_⟩
  · intro k
    have h := crossed_interval ms (State.new m seed) k
    have h0 : ¬ inCache (State.new m seed) k := by
      simp [inCache, State.new]
    tauto
  · exact pastOk_get seed _ _ hgood.2.1
  · exact futOk_get seed _ _ hgood.2.2
  · intro jp jf
    omega

/-- C10: negative-time die keying — the `as u64` cast composed with XOR by the
instance seed is injective over the i32 range, and `-1` maps to `2 ^ 64 - 1`. -/
theorem die_keying_injective (seed : Nat) (t1 t2 : Int)
    (h1 : -(2 ^ 31) ≤ t1 ∧ t1 < 2 ^ 31) (h2 : -(2 ^ 31) ≤ t2 ∧ t2 < 2 ^ 31) :
    (u64_of_i32 t1 ^^^ seed = u64_of_i32 t2 ^^^ seed → t1 = t2) ∧
    u64_of_i32 (-1) = 2 ^ 64 - 1 := by
  constructor
  · intro h
    have hx : u64_of_i32 t1 = u64_of_i32 t2 := by
      have h2x := congrArg (fun x => x ^^^ seed) h
      simpa [Nat.xor_assoc] using h2x
    simp only [u64_of_i32] at hx
    omega
  · decide

/-- Witness for C10 at `seed = 42`, `t1 = t2 = -1`. -/
theorem die_keying_injective_witness :
    (-(2 ^ 31) ≤ (-1 : Int) ∧ (-1 : Int) < 2 ^ 31) ∧
    ((u64_of_i32 (-1) ^^^ 42 = u64_of_i32 (-1) ^^^ 42 → (-1 : Int) = -1) ∧
      u64_of_i32 (-1) = 2 ^ 64 - 1) :=
  ⟨by decide, die_keying_injective 42 (-1) (-1) (by decide) (by decide)⟩

end Multibaker
